import Mathlib

/-!
Verification development for the UCI protocol shell in `py_uci.py`.

The Python engine class `UCIEngine` is shallowly embedded: its mutable
attributes become an explicit `EngineState`, each command handler becomes a
pure state transformer, and the imperative lifecycle operations of the
search manager (`_start_search`, `_stop_search`, `_cmd_ucinewgame`) are
additionally rendered as explicit event traces (`LEvent`) that record the
order of the side-effecting statements in the source.  The chess rules
engine (`python-chess`) is an external collaborator and is abstracted as a
`Rules` record of the operations the shell consumes.  Machine integers do
not overflow in any modelled path; wall-clock times carried by the info
throttle are modelled as exact rationals.
-/

namespace PyUci

variable {B M : Type}

/-- Worker for `pyTokens`: scan the characters, collecting the current word
in reverse. -/
def wordsAux : List Char → List Char → List String
  | [], cur => if cur.isEmpty then [] else [String.mk cur.reverse]
  | c :: cs, cur =>
    if c.isWhitespace then
      if cur.isEmpty then wordsAux cs [] else String.mk cur.reverse :: wordsAux cs []
    else wordsAux cs (c :: cur)

/-- Python `line.split()`: split on whitespace runs, dropping empty tokens. -/
def pyTokens (line : String) : List String :=
  wordsAux line.data []

/-- Lookup in an insertion-ordered association list, modelling a Python dict read. -/
def dictGet {α : Type} (l : List (String × α)) (k : String) : Option α :=
  match l with
  | [] => none
  | (k1, v1) :: rest => if k1 = k then some v1 else dictGet rest k

/-- Assignment `d[k] = v` on an insertion-ordered association list: replace in
place when the key exists, append otherwise (Python dict update semantics). -/
def dictSet {α : Type} (l : List (String × α)) (k : String) (v : α) : List (String × α) :=
  match l with
  | [] => [(k, v)]
  | (k1, v1) :: rest => if k1 = k then (k, v) :: rest else (k1, v1) :: dictSet rest k v

/-- One entry of `self.options`: a Python dict that may carry the keys
`type`, `default`, `min`, `max`, `var`.  A `none` field is an absent key; for
`default` the inner `Option` distinguishes a stored Python `None` (rendered
as the text `None` by an f-string) from a stored string. -/
structure OptInfo where
  type : Option String
  default : Option (Option String)
  min : Option String
  max : Option String
  var : Option (List String)
deriving DecidableEq, Repr

/-- Rendering of a Python value that is a string or `None` inside an f-string. -/
def pyStr : Option String → String
  | none => "None"
  | some s => s

/-- The state held in `UCIEngine`'s mutable attributes.  `searchThread` is the
handle of the live worker if any (`self.search_thread`), `nextTid` supplies
fresh worker identities, `stopEventSet` is the flag of `self.stop_event`,
`lastInfoTime` is `self._last_info_time`. -/
structure EngineState (B : Type) where
  name : String
  author : String
  board : B
  options : List (String × OptInfo)
  searchThread : Option Nat
  nextTid : Nat
  stopEventSet : Bool
  ponderFlag : Bool
  ponderMove : Option String
  lastInfoTime : ℚ
deriving DecidableEq

/-- The operations `py_uci.py` consumes from the external rules engine
(`python-chess`): initial board, legal-move enumeration, move application
(`push`), coordinate-notation decode/encode, FEN parsing, the history-free
board copy `board.copy(stack=False)`, and the side to move. -/
structure Rules (B M : Type) where
  initialBoard : B
  legalMoves : B → List M
  push : B → M → B
  fromUci : String → Option M
  uci : M → String
  fenParse : String → Option B
  copyNoStack : B → B
  turn : B → Bool

/-- The token-scanning loop of `_cmd_setoption`: collect the name between the
literal `name` and the literal `value`, then take every remaining token after
`value` rejoined with single spaces, and stop. -/
def parseSetoptionLoop (nm : Option String) (ts : List String) : Option String × Option String :=
  match ts with
  | [] => (nm, none)
  | t :: rest =>
    if t = "name" then
      let nm1 := some (" ".intercalate (rest.takeWhile (fun s => s != "value")))
      match rest.dropWhile (fun s => s != "value") with
      | [] => (nm1, none)
      | _ :: rest2 => (nm1, some (" ".intercalate rest2))
    else if t = "value" then (nm, some (" ".intercalate rest))
    else parseSetoptionLoop nm rest

/-- Parse the argument tokens of a `setoption` command into the optional name
and optional value, exactly as the while-loop of `_cmd_setoption` does. -/
def parseSetoption (ts : List String) : Option String × Option String :=
  parseSetoptionLoop none ts

/-- The record `{"type": "string", "default": value}` that `_cmd_setoption`
(and the default `set_option`) store for an option name. -/
def setoptionRecord (v : Option String) : OptInfo :=
  ⟨some "string", some v, none, none, none⟩

/-- Handler of `setoption`: parse name/value; when a name was found, store the
fresh record (once in `_cmd_setoption`, once more through the default
`set_option` hook). -/
def cmdSetoption (st : EngineState B) (tokens : List String) : EngineState B :=
  match parseSetoption tokens with
  | (none, _) => st
  | (some n, v) =>
    let o1 := dictSet st.options n (setoptionRecord v)
    let o2 := dictSet o1 n (setoptionRecord v)
    { st with options := o2 }

/-- The `option name … type … [default …] [min …] [max …] [var …]*` line that
`_cmd_uci` emits for one registered option. -/
def optLine (nm : String) (oi : OptInfo) : String :=
  let l0 := "option name " ++ nm ++ " type " ++ (match oi.type with | some t => t | none => "spin")
  let l1 := match oi.default with | some v => l0 ++ " default " ++ pyStr v | none => l0
  let l2 := match oi.min with | some v => l1 ++ " min " ++ v | none => l1
  let l3 := match oi.max with | some v => l2 ++ " max " ++ v | none => l2
  match oi.var with
  | some vs => vs.foldl (fun acc v => acc ++ " var " ++ v) l3
  | none => l3

/-- Output of the `uci` handshake handler: id lines, one option line per
registered option in registration order, then `uciok`. -/
def cmdUciOut (st : EngineState B) : List String :=
  ("id name " ++ st.name) :: ("id author " ++ st.author) ::
    (st.options.map (fun p => optLine p.1 p.2) ++ ["uciok"])

/-- One move token of a `position … moves …` tail, as applied by
`_cmd_position`: decode via the rules engine; on decode failure skip the
token; otherwise push it — the branch on legality only changes logging, the
move is pushed in both branches. -/
def applyMoveToken [DecidableEq M] (R : Rules B M) (b : B) (t : String) : B :=
  match R.fromUci t with
  | some mv => if mv ∈ R.legalMoves b then R.push b mv else R.push b mv
  | none => b

/-- The optional `moves m1 m2 …` tail of a `position` command. -/
def movesSection [DecidableEq M] (R : Rules B M) (b : B) : List String → B
  | "moves" :: ms => ms.foldl (applyMoveToken R) b
  | _ => b

/-- Handler of `position`: `startpos` rebuilds the initial board, `fen` parses
the next six tokens (a failed parse raises, leaving the board unchanged —
rendered as `.error`), anything else leaves the index at the start so a
leading `moves` still applies to the current board. -/
def cmdPosition [DecidableEq M] (R : Rules B M) (b : B) (tokens : List String) :
    Except Unit B :=
  match tokens with
  | [] => .ok b
  | "startpos" :: rest => .ok (movesSection R R.initialBoard rest)
  | "fen" :: rest =>
    match R.fenParse (" ".intercalate (rest.take 6)) with
    | some b1 => .ok (movesSection R b1 (rest.drop 6))
    | none => .error ()
  | other => .ok (movesSection R b other)

/-- Side-effecting steps of the search lifecycle, in source order: the board
reset of `ucinewgame`, setting/clearing `self.stop_event`, the bounded
`thread.join(timeout=5.0)` attempt, and spawning a worker thread. -/
inductive LEvent where
  | resetBoard
  | setStop
  | clearStop
  | join (tid : Nat)
  | spawn (tid : Nat)
deriving DecidableEq, Repr

/-- Embedding of `_stop_search(wait=True)`: set the stop event, drop the thread handle, and
join the previous worker (bounded by the 5 s timeout) when one existed. -/
def stopSearch (st : EngineState B) : EngineState B × List LEvent :=
  ({ st with stopEventSet := true, searchThread := none },
   LEvent.setStop :: (match st.searchThread with
     | some t => [LEvent.join t]
     | none => []))

/-- Embedding of `_start_search`: under the search lock, stop-and-join any previous job,
clear the stop event, then spawn exactly one new worker. -/
def startSearch (st : EngineState B) : EngineState B × List LEvent :=
  let p := stopSearch st
  ({ p.1 with
      stopEventSet := false
      searchThread := some st.nextTid
      nextTid := st.nextTid + 1 },
   p.2 ++ [LEvent.clearStop, LEvent.spawn st.nextTid])

/-- Embedding of `_cmd_ucinewgame`, statement by statement: `self.board.reset()`, then
`self.stop_event.set()`, then `self._stop_search(wait=True)`, then
`self.stop_event.clear()`. -/
def cmdUcinewgame (R : Rules B M) (st : EngineState B) : EngineState B × List LEvent :=
  let st1 := { st with board := R.initialBoard, stopEventSet := true }
  let p := stopSearch st1
  ({ p.1 with stopEventSet := false },
   LEvent.resetBoard :: LEvent.setStop :: (p.2 ++ [LEvent.clearStop]))

/-- Values a `_parse_go` limits dict can hold: parsed integers, raw token
strings (when `int()` failed), the `infinite`/`ponder` flags, and the derived
`time` in seconds. -/
inductive LimitVal where
  | int (n : Int)
  | str (s : String)
  | bool (b : Bool)
  | rat (q : ℚ)
deriving DecidableEq, Repr

/-- The keys of `go` that take an integer argument. -/
def goIntKeys : List String :=
  ["wtime", "btime", "winc", "binc", "movestogo", "depth", "nodes", "mate", "movetime"]

/-- Python truthiness of a limits-dict value, for `bool(limits.get("ponder", False))`. -/
def limitTruthy : LimitVal → Bool
  | .int n => n != 0
  | .str s => s != ""
  | .bool b => b
  | .rat q => q != 0

/-- The token loop of `_parse_go`. -/
def parseGoLoop (acc : List (String × LimitVal)) : List String → List (String × LimitVal)
  | [] => acc
  | t :: rest =>
    if t ∈ goIntKeys then
      match rest with
      | [] => acc
      | v :: rest2 =>
        parseGoLoop (dictSet acc t (match v.toInt? with
          | some n => LimitVal.int n
          | none => LimitVal.str v)) rest2
    else if t = "infinite" then parseGoLoop (dictSet acc "infinite" (LimitVal.bool true)) rest
    else if t = "ponder" then parseGoLoop (dictSet acc "ponder" (LimitVal.bool true)) rest
    else parseGoLoop acc rest

/-- Embedding of `_parse_go`: run the token loop, then derive `time` (seconds) from
`movetime`, else from the side to move's clock.  Dividing a non-integer
stored value raises a `TypeError` in the source; that path is `.error`. -/
def parseGo (R : Rules B M) (b : B) (tokens : List String) :
    Except Unit (List (String × LimitVal)) :=
  let limits := parseGoLoop [] tokens
  match dictGet limits "movetime" with
  | some (LimitVal.int n) => .ok (dictSet limits "time" (LimitVal.rat ((n : ℚ) / 1000)))
  | some _ => .error ()
  | none =>
    if R.turn b then
      match dictGet limits "wtime" with
      | some (LimitVal.int n) =>
        .ok (if (dictGet limits "time").isSome then limits
             else dictSet limits "time" (LimitVal.rat ((n : ℚ) / 1000)))
      | some _ => .error ()
      | none => .ok limits
    else
      match dictGet limits "btime" with
      | some (LimitVal.int n) =>
        .ok (if (dictGet limits "time").isSome then limits
             else dictSet limits "time" (LimitVal.rat ((n : ℚ) / 1000)))
      | some _ => .error ()
      | none => .ok limits

/-- Embedding of `_cmd_go`: parse the limits, record the ponder flag, start the search job.
A raising parse (caught in the run loop) leaves the state unchanged and
starts nothing. -/
def cmdGo (R : Rules B M) (st : EngineState B) (args : List String) :
    EngineState B × List LEvent :=
  match parseGo R st.board args with
  | .error _ => (st, [])
  | .ok limits =>
    let st1 := { st with ponderFlag := (match dictGet limits "ponder" with
      | some v => limitTruthy v
      | none => false) }
    startSearch st1

/-- The `score` value of an info dict: either a nested dict with `cp`/`mate`
keys, or any other value rendered by `str`. -/
inductive ScoreVal where
  | dict (cp : Option Int) (mate : Option Int)
  | other (s : String)
deriving DecidableEq

/-- The `pv` value of an info dict: a list of moves (each already rendered as
its coordinate text by `m.uci()` or `str(m)`), or any other value via `str`. -/
inductive PvVal where
  | list (ms : List String)
  | str (s : String)
deriving DecidableEq

/-- An info dict handed to `_send_info`; absent keys are `none`.  `time` is in
seconds. -/
structure InfoEvent where
  depth : Option Int
  seldepth : Option Int
  score : Option ScoreVal
  nodes : Option Int
  nps : Option Int
  pv : Option PvVal
  time : Option ℚ
deriving DecidableEq

/-- Python `int(x * 1000)` on a float time in seconds: truncation toward zero. -/
def truncMs (q : ℚ) : Int :=
  if 0 ≤ q then (q * 1000).floor else (q * 1000).ceil

/-- The token groups `_send_info` appends after the leading `info`. -/
def infoParts (i : InfoEvent) : List String :=
  (match i.depth with | some d => ["depth", toString d] | none => []) ++
  (match i.seldepth with | some d => ["seldepth", toString d] | none => []) ++
  (match i.score with
    | some (ScoreVal.dict cp mate) =>
      (match cp with
       | some n => ["score", "cp", toString n]
       | none => match mate with
         | some n => ["score", "mate", toString n]
         | none => [])
    | some (ScoreVal.other s) => ["score", s]
    | none => []) ++
  (match i.nodes with | some n => ["nodes", toString n] | none => []) ++
  (match i.nps with | some n => ["nps", toString n] | none => []) ++
  (match i.pv with
    | some (PvVal.list ms) => ["pv", " ".intercalate ms]
    | some (PvVal.str s) => ["pv", s]
    | none => []) ++
  (match i.time with | some q => ["time", toString (truncMs q)] | none => [])

/-- The `info …` line `_send_info` emits: the space-join of `info` and the
parts, written as `info` followed by one space-prefixed token per part. -/
def formatInfo (i : InfoEvent) : String :=
  "info" ++ String.join ((infoParts i).map (fun p => " " ++ p))

/-- The throttling `info_callback` closure of `_search_worker`, run over a
sequence of timestamped invocations: a call at time `now` emits (and only
then updates `self._last_info_time`) exactly when `now - last >= 0.05`;
otherwise the call is dropped and the window state is untouched. -/
def throttleRun (last : ℚ) : List (ℚ × InfoEvent) → List (ℚ × String)
  | [] => []
  | c :: cs =>
    if 1 / 20 ≤ c.1 - last then (c.1, formatInfo c.2) :: throttleRun c.1 cs
    else throttleRun last cs

/-- The value a strategy call produced, as `_search_worker` discriminates it:
Python `None`, a `chess.Move`, a tuple of length at least two (its first two
components rendered by `str`), or anything else rendered by `str`. -/
inductive PyRes (M : Type) where
  | none
  | move (m : M)
  | tuple2 (a b : String)
  | other (s : String)
deriving DecidableEq

/-- Either the strategy returned a value, or it raised an uncaught exception. -/
inductive StrategyOutcome (M : Type) where
  | ok (r : PyRes M)
  | raises
deriving DecidableEq

/-- Python truthiness of `self.ponder_move` (a string or `None`). -/
def pyTruthyOptStr : Option String → Bool
  | none => false
  | some s => s != ""

/-- The in-code fallback move text: the first legal move of the engine's
current `self.board`, or the literal `(none)` — the pattern of lines
356–360 and 381–385 of `_search_worker`. -/
def codeFallback (R : Rules B M) (live : B) : String :=
  match R.legalMoves live with
  | [] => "(none)"
  | mv :: _ => R.uci mv

/-- The `best` text `_search_worker` computes from the strategy's return
value: `None` falls back to the first legal move of the live `self.board`
(or `(none)`); a move is encoded; a tuple's first component and any other
value keep their `str` rendering. -/
def bestOf (R : Rules B M) (live : B) : PyRes M → String
  | .none => (match R.legalMoves live with | [] => "(none)" | mv :: _ => R.uci mv)
  | .move m => R.uci m
  | .tuple2 a _ => a
  | .other s => s

/-- The `ponder` value `_search_worker` computes: a tuple's second component,
else `self.ponder_move` when that is truthy. -/
def ponderOf (pm : Option String) : PyRes M → Option String
  | .tuple2 _ pb => some pb
  | _ => if pyTruthyOptStr pm then pm else Option.none

/-- The final send: `bestmove <best> ponder <p>` when the ponder value is a
truthy string, plain `bestmove <best>` otherwise. -/
def bestmoveLine (best : String) (po : Option String) : List String :=
  match po with
  | some p =>
    if p != "" then ["bestmove " ++ best ++ " ponder " ++ p] else ["bestmove " ++ best]
  | Option.none => ["bestmove " ++ best]

/-- The lines `_search_worker` emits after the strategy call returns or
raises.  `live` is the board `self.board` refers to at that moment (the
dispatcher may have replaced it since the job started); `pm` is
`self.ponder_move`. -/
def completionLines (R : Rules B M) (live : B) (pm : Option String)
    (o : StrategyOutcome M) : List String :=
  match o with
  | .raises =>
    match R.legalMoves live with
    | [] => ["bestmove (none)"]
    | mv :: _ => ["bestmove " ++ R.uci mv]
  | .ok r => bestmoveLine (bestOf R live r) (ponderOf pm r)

/-- Everything one `_search_worker` run writes to stdout, in order: the info
lines its throttled callback let through while the strategy ran, then the
completion lines. -/
def searchWorkerOut (R : Rules B M) (live : B) (pm : Option String) (last : ℚ)
    (calls : List (ℚ × InfoEvent)) (o : StrategyOutcome M) : List String :=
  (throttleRun last calls).map Prod.snd ++ completionLines R live pm o

/-- Recognizer for a `bestmove` response line: its first eight characters are
`bestmove`. -/
def isBestmoveLine (s : String) : Bool :=
  match s.data with
  | 'b' :: 'e' :: 's' :: 't' :: 'm' :: 'o' :: 'v' :: 'e' :: _ => true
  | _ => false

/-- The single cancellation token an engine owns, `self.stop_event`, passed by
reference. -/
inductive TokenRef where
  | engineStopEvent
deriving DecidableEq, Repr

/-- The info callback closure defined inside `_search_worker`, passed by
reference. -/
inductive CallbackRef where
  | workerInfoCallback
deriving DecidableEq, Repr

/-- The argument tuple of the strategy invocation in `_search_worker`:
`self.search_fn(self.board.copy(stack=False), limits, self.stop_event,
info_callback)` — one field per actual argument. -/
structure StrategyCallArgs (B : Type) where
  position : B
  limits : List (String × LimitVal)
  cancellationToken : TokenRef
  infoCallback : CallbackRef
deriving DecidableEq

/-- What `_search_worker` passes to the strategy, as a function of the engine
state at the moment of the call. -/
def strategyCallOf (R : Rules B M) (st : EngineState B)
    (limits : List (String × LimitVal)) : StrategyCallArgs B :=
  { position := R.copyNoStack st.board
    limits := limits
    cancellationToken := TokenRef.engineStopEvent
    infoCallback := CallbackRef.workerInfoCallback }

/-- Result of `_handle_line` plus the run loop's exception guard: the state
afterwards, the response lines written for the client, whether the loop must
stop, and the lifecycle events performed. -/
structure HandleRes (B : Type) where
  state : EngineState B
  out : List String
  stop : Bool
  events : List LEvent
deriving DecidableEq

/-- The nine command words `_handle_line` recognizes. -/
def knownCmds : List String :=
  ["uci", "isready", "setoption", "ucinewgame", "position", "go", "stop", "ponderhit", "quit"]

/-- The first token of a line, selecting the handler. -/
def headCmd (line : String) : Option String :=
  (pyTokens line).head?

/-- The dispatch of `_handle_line` on the token list, under the run loop's
`try/except`: the first token selects the handler; unknown commands are only
logged; a handler exception (the `fen` parse, or the empty token list's
index error) is caught by the loop, which then continues. -/
def dispatchTok [DecidableEq M] (R : Rules B M) (st : EngineState B) :
    List String → HandleRes B
  | [] => ⟨st, [], false, []⟩
  | cmd :: args =>
    if cmd = "uci" then ⟨st, cmdUciOut st, false, []⟩
    else if cmd = "isready" then ⟨st, ["readyok"], false, []⟩
    else if cmd = "setoption" then ⟨cmdSetoption st args, [], false, []⟩
    else if cmd = "ucinewgame" then
      ⟨(cmdUcinewgame R st).1, [], false, (cmdUcinewgame R st).2⟩
    else if cmd = "position" then
      match cmdPosition R st.board args with
      | .ok b => ⟨{ st with board := b }, [], false, []⟩
      | .error _ => ⟨st, [], false, []⟩
    else if cmd = "go" then ⟨(cmdGo R st args).1, [], false, (cmdGo R st args).2⟩
    else if cmd = "stop" then ⟨(stopSearch st).1, [], false, (stopSearch st).2⟩
    else if cmd = "ponderhit" then ⟨{ st with ponderFlag := false }, [], false, []⟩
    else if cmd = "quit" then ⟨(stopSearch st).1, [], true, (stopSearch st).2⟩
    else ⟨st, [], false, []⟩

/-- Embedding of `_handle_line` on a raw input line. -/
def handleLine [DecidableEq M] (R : Rules B M) (st : EngineState B) (line : String) :
    HandleRes B :=
  dispatchTok R st (pyTokens line)

/-- The `run` loop over a whole input: strip each line, skip blank ones,
dispatch the rest, stop on `quit`; the `finally` block stops any live search
at the end.  Returns the final state, the client output, and the lifecycle
events. -/
def runLoop [DecidableEq M] (R : Rules B M) (st : EngineState B) :
    List String → EngineState B × List String × List LEvent
  | [] =>
    let p := stopSearch st
    (p.1, [], p.2)
  | line :: rest =>
    if (line.trim).isEmpty then runLoop R st rest
    else
      let h := handleLine R st line.trim
      if h.stop then
        let p := stopSearch h.state
        (p.1, h.out, h.events ++ p.2)
      else
        let r := runLoop R h.state rest
        (r.1, h.out ++ r.2.1, h.events ++ r.2.2)

/-- Stepwise legality of a move sequence: each move is in the legal-move set
of the board reached by applying its predecessors. -/
inductive LegalSeq (R : Rules B M) : B → List M → Prop
  | nil (b : B) : LegalSeq R b []
  | cons {b : B} {m : M} {ms : List M} :
      m ∈ R.legalMoves b → LegalSeq R (R.push b m) ms → LegalSeq R b (m :: ms)

/-- The fallback the specification prescribes, following its words: the first
legal move of the position snapshot the job was given, or `(none)`. -/
def specFallback (R : Rules B M) (snapshot : B) : String :=
  match R.legalMoves snapshot with
  | [] => "(none)"
  | mv :: _ => R.uci mv

/-- A tiny concrete rules engine used to evaluate the development on closed
inputs: a board is the list of its legal move texts, pushing a move makes it
the only legal reply. -/
def toyRules : Rules (List String) String :=
  { initialBoard := ["e2e4"]
    legalMoves := fun b => b
    push := fun _ m => [m]
    fromUci := fun s => some s
    uci := fun m => m
    fenParse := fun _ => Option.none
    copyNoStack := fun b => b
    turn := fun _ => true }

/-- A concrete engine state over the toy rules, as built by `UCIEngine.__init__`. -/
def toyState : EngineState (List String) :=
  { name := "PythonUCIEngine"
    author := "Author"
    board := ["e2e4"]
    options := []
    searchThread := none
    nextTid := 0
    stopEventSet := false
    ponderFlag := false
    ponderMove := none
    lastInfoTime := 0 }

/-- The toy state with a live search job, for exercising the lifecycle. -/
def toyStateBusy : EngineState (List String) :=
  { toyState with searchThread := some 7, nextTid := 8 }

/-! Lemmas about the option dictionary. -/

theorem dictGet_dictSet {α : Type} (l : List (String × α)) (k : String) (v : α) :
    dictGet (dictSet l k v) k = some v := by
  induction l with
  | nil => simp [dictSet, dictGet]
  | cons p rest ih =>
    by_cases h : p.1 = k
    · simp [dictSet, dictGet, h]
    · simp [dictSet, dictGet, h, ih]

theorem mem_dictSet_self {α : Type} (l : List (String × α)) (k : String) (v : α) :
    (k, v) ∈ dictSet l k v := by
  induction l with
  | nil => simp [dictSet]
  | cons p rest ih =>
    by_cases h : p.1 = k
    · simp [dictSet, h]
    · simp only [dictSet]
      rw [if_neg h]
      exact List.mem_cons_of_mem _ ih

theorem optLine_mem_cmdUciOut (st : EngineState B) (n : String) (oi : OptInfo)
    (h : (n, oi) ∈ st.options) : optLine n oi ∈ cmdUciOut st := by
  unfold cmdUciOut
  refine List.mem_cons_of_mem _ (List.mem_cons_of_mem _ (List.mem_append_left _ ?_))
  exact List.mem_map.mpr ⟨(n, oi), h, rfl⟩

theorem parseSetoption_name_value (n v : String) (hn : n ≠ "value") :
    parseSetoption ["name", n, "value", v] = (some n, some v) := by
  have hb : (n != "value") = true := by simp [bne_iff_ne, hn]
  simp [parseSetoption, parseSetoptionLoop, List.takeWhile, List.dropWhile, hb,
    String.intercalate, String.intercalate.go]

/-- Claim C9: handling `setoption name Dilution value 75` stores the value and
the next `uci` handshake emits an option line for `Dilution` whose `default`
field shows `75`; the same holds for any (possibly unregistered) option name,
which is accepted and retrievable afterwards. -/
theorem setoption_then_uci_reflects_value (st : EngineState B) (n v : String)
    (hn : n ≠ "value") :
    dictGet (cmdSetoption st ["name", n, "value", v]).options n
        = some (setoptionRecord (some v))
    ∧ optLine n (setoptionRecord (some v))
        = "option name " ++ n ++ " type " ++ "string" ++ " default " ++ v
    ∧ optLine n (setoptionRecord (some v))
        ∈ cmdUciOut (cmdSetoption st ["name", n, "value", v]) := by
  have hp := parseSetoption_name_value n v hn
  have hst : (cmdSetoption st ["name", n, "value", v]).options
      = dictSet (dictSet st.options n (setoptionRecord (some v))) n
          (setoptionRecord (some v)) := by
    unfold cmdSetoption
    rw [hp]
  refine ⟨?_, rfl, ?_⟩
  · rw [hst]; exact dictGet_dictSet _ _ _
  · refine optLine_mem_cmdUciOut _ n _ ?_
    rw [hst]; exact mem_dictSet_self _ _ _

theorem setoption_then_uci_witness :
    dictGet (cmdSetoption toyState ["name", "Dilution", "value", "75"]).options "Dilution"
        = some (setoptionRecord (some "75"))
    ∧ optLine "Dilution" (setoptionRecord (some "75"))
        = "option name " ++ "Dilution" ++ " type " ++ "string" ++ " default " ++ "75"
    ∧ optLine "Dilution" (setoptionRecord (some "75"))
        ∈ cmdUciOut (cmdSetoption toyState ["name", "Dilution", "value", "75"]) :=
  setoption_then_uci_reflects_value toyState "Dilution" "75" (by decide)

/-- Claim C10: for every `setoption` whose tokens yield a name, the stored
record for that name is exactly `{"type": "string", "default": value}` — any
previously registered kind, default, min, max or choices are discarded — and
the next `uci` handshake emits an option line whose `default` field carries
the new value (the text `None` when no `value` token followed). -/
theorem setoption_stores_string_record (st : EngineState B) (tokens : List String)
    (n : String) (v : Option String) (h : parseSetoption tokens = (some n, v)) :
    dictGet (cmdSetoption st tokens).options n = some (setoptionRecord v)
    ∧ setoptionRecord v = ⟨some "string", some v, none, none, none⟩
    ∧ optLine n (setoptionRecord v)
        = "option name " ++ n ++ " type " ++ "string" ++ " default " ++ pyStr v
    ∧ optLine n (setoptionRecord v) ∈ cmdUciOut (cmdSetoption st tokens) := by
  have hst : (cmdSetoption st tokens).options
      = dictSet (dictSet st.options n (setoptionRecord v)) n (setoptionRecord v) := by
    unfold cmdSetoption
    rw [h]
  refine ⟨?_, rfl, rfl, ?_⟩
  · rw [hst]; exact dictGet_dictSet _ _ _
  · refine optLine_mem_cmdUciOut _ n _ ?_
    rw [hst]; exact mem_dictSet_self _ _ _

theorem setoption_stores_string_record_witness :
    dictGet (cmdSetoption
        { toyState with options :=
            [("Dilution", ⟨some "spin", some (some "50"), some "0", some "100", none⟩)] }
        ["name", "Dilution", "value", "75"]).options "Dilution"
        = some (setoptionRecord (some "75"))
    ∧ setoptionRecord (some "75") = ⟨some "string", some (some "75"), none, none, none⟩
    ∧ optLine "Dilution" (setoptionRecord (some "75"))
        = "option name " ++ "Dilution" ++ " type " ++ "string" ++ " default "
            ++ pyStr (some "75")
    ∧ optLine "Dilution" (setoptionRecord (some "75"))
        ∈ cmdUciOut (cmdSetoption
            { toyState with options :=
                [("Dilution", ⟨some "spin", some (some "50"), some "0", some "100", none⟩)] }
            ["name", "Dilution", "value", "75"]) :=
  setoption_stores_string_record _ _ "Dilution" (some "75") (by decide)

/-! Ordering of the search lifecycle. -/

/-- Claim C2: starting a new search job while one is active first signals
cancellation, then join-attempts the previous worker (bounded timeout), and
only afterwards spawns the new worker; exactly one worker is spawned, the
stop step leaves no registered worker, and afterwards the new job is the
only one registered. -/
theorem second_go_joins_previous_before_spawn (st : EngineState B) (t : Nat)
    (h : st.searchThread = some t) :
    (startSearch st).2
        = [LEvent.setStop, LEvent.join t, LEvent.clearStop, LEvent.spawn st.nextTid]
    ∧ (∃ i j k : Nat, i < j ∧ j < k
        ∧ (startSearch st).2[i]? = some LEvent.setStop
        ∧ (startSearch st).2[j]? = some (LEvent.join t)
        ∧ (startSearch st).2[k]? = some (LEvent.spawn st.nextTid))
    ∧ (startSearch st).2.countP
        (fun e => match e with | LEvent.spawn _ => true | _ => false) = 1
    ∧ (stopSearch st).1.searchThread = none
    ∧ (startSearch st).1.searchThread = some st.nextTid := by
  have he : (startSearch st).2
      = [LEvent.setStop, LEvent.join t, LEvent.clearStop, LEvent.spawn st.nextTid] := by
    simp [startSearch, stopSearch, h]
  refine ⟨he, ⟨0, 1, 3, by omega, by omega, ?_, ?_, ?_⟩, ?_, rfl, rfl⟩
  · rw [he]; rfl
  · rw [he]; rfl
  · rw [he]; rfl
  · rw [he]
    simp [List.countP_cons]

theorem second_go_joins_previous_witness :
    (startSearch toyStateBusy).2
        = [LEvent.setStop, LEvent.join 7, LEvent.clearStop, LEvent.spawn toyStateBusy.nextTid]
    ∧ (∃ i j k : Nat, i < j ∧ j < k
        ∧ (startSearch toyStateBusy).2[i]? = some LEvent.setStop
        ∧ (startSearch toyStateBusy).2[j]? = some (LEvent.join 7)
        ∧ (startSearch toyStateBusy).2[k]? = some (LEvent.spawn toyStateBusy.nextTid))
    ∧ (startSearch toyStateBusy).2.countP
        (fun e => match e with | LEvent.spawn _ => true | _ => false) = 1
    ∧ (stopSearch toyStateBusy).1.searchThread = none
    ∧ (startSearch toyStateBusy).1.searchThread = some toyStateBusy.nextTid :=
  second_go_joins_previous_before_spawn toyStateBusy 7 rfl

/-- Claim C5 counterexample: on a state with an active job, the event trace of
`ucinewgame` has the board reset at position 0 and the join of the active
worker only at position 3 — the Position is reset before the job is stopped
and joined, not after, contradicting the claimed order. -/
theorem ucinewgame_resets_before_join :
    (cmdUcinewgame toyRules toyStateBusy).2.indexOf LEvent.resetBoard = 0
    ∧ (cmdUcinewgame toyRules toyStateBusy).2.indexOf (LEvent.join 7) = 3
    ∧ LEvent.resetBoard ∈ (cmdUcinewgame toyRules toyStateBusy).2
    ∧ LEvent.join 7 ∈ (cmdUcinewgame toyRules toyStateBusy).2 := by
  decide

/-- Claim C5 as amended: handling `ucinewgame` resets the Position to the
initial position FIRST, then signals cancellation and join-attempts any
active job (bounded wait), and finally clears the cancellation state; the
final state holds the initial position, no worker handle, and a cleared
stop event. -/
theorem ucinewgame_event_order (R : Rules B M) (st : EngineState B) (t : Nat)
    (h : st.searchThread = some t) :
    (cmdUcinewgame R st).2
        = [LEvent.resetBoard, LEvent.setStop, LEvent.setStop, LEvent.join t,
            LEvent.clearStop]
    ∧ (cmdUcinewgame R st).1.board = R.initialBoard
    ∧ (cmdUcinewgame R st).1.stopEventSet = false
    ∧ (cmdUcinewgame R st).1.searchThread = none := by
  refine ⟨?_, rfl, rfl, rfl⟩
  simp [cmdUcinewgame, stopSearch, h]

theorem ucinewgame_event_order_witness :
    (cmdUcinewgame toyRules toyStateBusy).2
        = [LEvent.resetBoard, LEvent.setStop, LEvent.setStop, LEvent.join 7,
            LEvent.clearStop]
    ∧ (cmdUcinewgame toyRules toyStateBusy).1.board = toyRules.initialBoard
    ∧ (cmdUcinewgame toyRules toyStateBusy).1.stopEventSet = false
    ∧ (cmdUcinewgame toyRules toyStateBusy).1.searchThread = none :=
  ucinewgame_event_order toyRules toyStateBusy 7 rfl

/-! Arguments of the strategy invocation. -/

/-- Claim C3 counterexample: the argument tuple `_search_worker` hands the
strategy is identical for two engine states whose Option Registries differ —
the invocation carries exactly the four arguments (snapshot, limits, token,
info callback) and no read view of the Option Registry. -/
theorem strategy_call_has_no_options_argument :
    strategyCallOf toyRules toyState []
        = strategyCallOf toyRules
            { toyState with options := [("Dilution", setoptionRecord (some "75"))] } []
    ∧ toyState.options
        ≠ [("Dilution", setoptionRecord (some "75"))] := by
  decide

/-- Claim C3 as amended: every search worker invokes the strategy with exactly
the four arguments `(position snapshot, limits, cancellation token, info
callback)`; no fifth options argument exists, and the invocation is
independent of the Option Registry. -/
theorem strategy_call_args_exact (R : Rules B M) (st : EngineState B)
    (limits : List (String × LimitVal)) :
    strategyCallOf R st limits
        = { position := R.copyNoStack st.board
            limits := limits
            cancellationToken := TokenRef.engineStopEvent
            infoCallback := CallbackRef.workerInfoCallback }
    ∧ ∀ opts, strategyCallOf R { st with options := opts } limits
        = strategyCallOf R st limits :=
  ⟨rfl, fun _ => rfl⟩

/-! Replay of position commands. -/

theorem foldl_applyMoveToken_eq_push [DecidableEq M] (R : Rules B M) :
    ∀ (toks : List String) (ms : List M) (b : B),
      toks.map R.fromUci = ms.map some →
      toks.foldl (applyMoveToken R) b = ms.foldl R.push b := by
  intro toks
  induction toks with
  | nil =>
    intro ms b h
    cases ms with
    | nil => rfl
    | cons m ms2 => simp at h
  | cons t ts ih =>
    intro ms b h
    cases ms with
    | nil => simp at h
    | cons m ms2 =>
      simp only [List.map_cons, List.cons.injEq] at h
      obtain ⟨h1, h2⟩ := h
      simp only [List.foldl_cons]
      have ha : applyMoveToken R b t = R.push b m := by
        simp [applyMoveToken, h1]
      rw [ha]
      exact ih ms2 (R.push b m) h2

/-- Claim C6: after `position startpos moves m1 … mk` with every token
decoding to a move and the sequence stepwise legal from the initial
position, the held Position is the fold of the rules engine's `push` over
`m1 … mk` starting from the initial position. -/
theorem position_startpos_moves_replays [DecidableEq M] (R : Rules B M) (b0 : B)
    (toks : List String) (ms : List M)
    (hdec : toks.map R.fromUci = ms.map some)
    (hleg : LegalSeq R R.initialBoard ms) :
    cmdPosition R b0 ("startpos" :: "moves" :: toks)
        = Except.ok (ms.foldl R.push R.initialBoard) := by
  have hc : cmdPosition R b0 ("startpos" :: "moves" :: toks)
      = Except.ok (toks.foldl (applyMoveToken R) R.initialBoard) := rfl
  rw [hc, foldl_applyMoveToken_eq_push R toks ms R.initialBoard hdec]

theorem position_startpos_moves_witness :
    cmdPosition toyRules ["zz"] ("startpos" :: "moves" :: ["e2e4"])
        = Except.ok ((["e2e4"] : List String).foldl toyRules.push toyRules.initialBoard) :=
  position_startpos_moves_replays toyRules ["zz"] ["e2e4"] ["e2e4"] (by decide)
    (LegalSeq.cons (by decide) (LegalSeq.nil _))

/-! Fallback behaviour at job completion. -/

/-- Claim C4 counterexample: a job given a snapshot whose first legal move is
`a1a2` completes with a `None` strategy result after the dispatcher has
replaced the live position with one whose first legal move is `b1b2`; the
worker emits `bestmove b1b2` — the fallback is taken from the engine's live
board, not from the snapshot the job was given — and an "invalid" non-`None`
result such as the empty string is emitted as-is, not replaced by any
fallback. -/
theorem none_result_fallback_ignores_snapshot :
    completionLines toyRules ["b1b2"] Option.none (StrategyOutcome.ok PyRes.none)
        = ["bestmove b1b2"]
    ∧ specFallback toyRules ["a1a2"] = "a1a2"
    ∧ completionLines toyRules ["b1b2"] Option.none (StrategyOutcome.ok PyRes.none)
        ≠ ["bestmove " ++ specFallback toyRules ["a1a2"]]
    ∧ completionLines toyRules ["b1b2"] Option.none
        (StrategyOutcome.ok (PyRes.other "")) = ["bestmove "]
    ∧ completionLines toyRules ["b1b2"] Option.none
        (StrategyOutcome.ok (PyRes.other ""))
        ≠ ["bestmove " ++ specFallback toyRules ["b1b2"]] := by
  decide

theorem bestmoveLine_shape (best : String) (po : Option String) :
    ∃ t, bestmoveLine best po = [("bestmove " ++ best) ++ t] := by
  cases po with
  | none => exact ⟨"", by simp [bestmoveLine]⟩
  | some p =>
    by_cases hp : (p != "") = true
    · exact ⟨" ponder " ++ p, by simp [bestmoveLine, hp, String.append_assoc]⟩
    · exact ⟨"", by simp [bestmoveLine, hp]⟩

/-- Claim C4 as amended: whenever the Strategy returns `None` or raises, the
emitted bestmove token is the fallback computed from the engine's live
position at completion time — its first legal move, or the literal `(none)`
when it has no legal move; a raising strategy yields exactly that line, a
`None` return yields it possibly followed by a ponder suffix. -/
theorem none_result_fallback_uses_live_board (R : Rules B M) (live : B)
    (pm : Option String) :
    completionLines R live pm StrategyOutcome.raises
        = ["bestmove " ++ codeFallback R live]
    ∧ ∃ suffix, completionLines R live pm (StrategyOutcome.ok PyRes.none)
        = [("bestmove " ++ codeFallback R live) ++ suffix] := by
  constructor
  · unfold completionLines codeFallback
    cases hl : R.legalMoves live with
    | nil => rfl
    | cons mv rest => rfl
  · obtain ⟨t, ht⟩ := bestmoveLine_shape (bestOf R live PyRes.none) (ponderOf pm PyRes.none)
    refine ⟨t, ?_⟩
    have hb : bestOf R live (PyRes.none : PyRes M) = codeFallback R live := rfl
    calc completionLines R live pm (StrategyOutcome.ok PyRes.none)
        = bestmoveLine (bestOf R live PyRes.none) (ponderOf pm PyRes.none) := rfl
      _ = [("bestmove " ++ bestOf R live PyRes.none) ++ t] := ht
      _ = [("bestmove " ++ codeFallback R live) ++ t] := by rw [hb]

/-! Exactly one bestmove line per job. -/

theorem isBestmoveLine_append (s : String) :
    isBestmoveLine ("bestmove " ++ s) = true := by
  have h : ("bestmove " ++ s).data
      = 'b' :: 'e' :: 's' :: 't' :: 'm' :: 'o' :: 'v' :: 'e' :: ' ' :: s.data := rfl
  unfold isBestmoveLine
  rw [h]
  rfl

theorem isBestmoveLine_formatInfo (i : InfoEvent) :
    isBestmoveLine (formatInfo i) = false := by
  have h : (formatInfo i).data
      = 'i' :: 'n' :: 'f' :: 'o'
          :: (String.join ((infoParts i).map (fun p => " " ++ p))).data := rfl
  unfold isBestmoveLine
  rw [h]
  rfl

theorem throttleRun_snd (last : ℚ) (calls : List (ℚ × InfoEvent)) :
    ∀ p ∈ throttleRun last calls, ∃ i, p.2 = formatInfo i := by
  induction calls generalizing last with
  | nil => intro p hp; simp [throttleRun] at hp
  | cons c cs ih =>
    intro p hp
    simp only [throttleRun] at hp
    split at hp
    · rcases List.mem_cons.mp hp with h | h
      · exact ⟨c.2, by rw [h]⟩
      · exact ih c.1 p h
    · exact ih last p hp

theorem completionLines_shape (R : Rules B M) (live : B) (pm : Option String)
    (o : StrategyOutcome M) :
    ∃ s, completionLines R live pm o = ["bestmove " ++ s] := by
  cases o with
  | raises =>
    cases hl : R.legalMoves live with
    | nil =>
      refine ⟨"(none)", ?_⟩
      unfold completionLines
      rw [hl]
      rfl
    | cons mv rest =>
      refine ⟨R.uci mv, ?_⟩
      unfold completionLines
      rw [hl]
  | ok r =>
    obtain ⟨t, ht⟩ := bestmoveLine_shape (bestOf R live r) (ponderOf pm r)
    refine ⟨bestOf R live r ++ t, ?_⟩
    have hc : completionLines R live pm (StrategyOutcome.ok r)
        = bestmoveLine (bestOf R live r) (ponderOf pm r) := rfl
    rw [hc, ht, String.append_assoc]

/-- Claim C1: every search job emits exactly one `bestmove` line, whatever the
strategy does — the throttled info lines never count as one, the completion
always contributes exactly one — and when the strategy raises, the job's
output is its info lines followed by the fallback `bestmove` for the live
position. -/
theorem go_emits_exactly_one_bestmove (R : Rules B M) (live : B) (pm : Option String)
    (last : ℚ) (calls : List (ℚ × InfoEvent)) (o : StrategyOutcome M) :
    (searchWorkerOut R live pm last calls o).countP isBestmoveLine = 1
    ∧ searchWorkerOut R live pm last calls StrategyOutcome.raises
        = (throttleRun last calls).map Prod.snd
            ++ ["bestmove " ++ codeFallback R live] := by
  have h0 : ((throttleRun last calls).map Prod.snd).countP isBestmoveLine = 0 := by
    rw [List.countP_eq_zero]
    intro s hs
    rcases List.mem_map.mp hs with ⟨pr, hpr, rfl⟩
    rcases throttleRun_snd last calls pr hpr with ⟨i, hi⟩
    rw [hi, isBestmoveLine_formatInfo]
    simp
  constructor
  · unfold searchWorkerOut
    rw [List.countP_append, h0]
    rcases completionLines_shape R live pm o with ⟨s, hs⟩
    rw [hs]
    simp [List.countP_cons, isBestmoveLine_append]
  · unfold searchWorkerOut
    have hr : completionLines R live pm (StrategyOutcome.raises : StrategyOutcome M)
        = ["bestmove " ++ codeFallback R live] := by
      unfold completionLines codeFallback
      cases hl : R.legalMoves live with
      | nil => rfl
      | cons mv rest => rfl
    rw [hr]

/-! Throttling of info lines. -/

theorem throttleRun_lower (last : ℚ) (calls : List (ℚ × InfoEvent)) :
    ∀ p ∈ throttleRun last calls, last + 1 / 20 ≤ p.1 := by
  induction calls generalizing last with
  | nil => intro p hp; simp [throttleRun] at hp
  | cons c cs ih =>
    intro p hp
    simp only [throttleRun] at hp
    split at hp
    case isTrue h =>
      rcases List.mem_cons.mp hp with h1 | h1
      · rw [h1]
        simp only []
        linarith
      · have h2 := ih c.1 p h1
        linarith
    case isFalse h =>
      exact ih last p hp

theorem throttleRun_pairwise (last : ℚ) (calls : List (ℚ × InfoEvent)) :
    (throttleRun last calls).Pairwise (fun p q => p.1 + 1 / 20 ≤ q.1) := by
  induction calls generalizing last with
  | nil => simp [throttleRun]
  | cons c cs ih =>
    simp only [throttleRun]
    split
    case isTrue h =>
      refine List.Pairwise.cons ?_ (ih c.1)
      intro q hq
      exact throttleRun_lower c.1 cs q hq
    case isFalse h =>
      exact ih last

theorem throttleRun_sublist (last : ℚ) (calls : List (ℚ × InfoEvent)) :
    (throttleRun last calls).Sublist (calls.map (fun c => (c.1, formatInfo c.2))) := by
  induction calls generalizing last with
  | nil => simp [throttleRun]
  | cons c cs ih =>
    simp only [throttleRun, List.map_cons]
    split
    case isTrue h => exact List.Sublist.cons₂ _ (ih c.1)
    case isFalse h => exact List.Sublist.cons _ (ih last)

theorem pairwise_gap_head (x : ℚ × String) (l : List (ℚ × String))
    (h : (x :: l).Pairwise (fun p q => p.1 + 1 / 20 ≤ q.1)) :
    ∃ v ∈ x :: l, x.1 + (l.length : ℚ) * (1 / 20) ≤ v.1 := by
  induction l generalizing x with
  | nil => exact ⟨x, by simp, by simp⟩
  | cons y t ih =>
    have h1 : x.1 + 1 / 20 ≤ y.1 := (List.pairwise_cons.mp h).1 y (by simp)
    have h2 := (List.pairwise_cons.mp h).2
    obtain ⟨v, hv, hle⟩ := ih y h2
    refine ⟨v, List.mem_cons_of_mem _ hv, ?_⟩
    simp only [List.length_cons] at *
    push_cast at *
    linarith

/-- Claim C7: the info callback emits at most one line per 50 ms window —
any two distinct emitted lines are at least 1/20 s apart, every emitted line
is one of the calls (calls inside the window are dropped, never queued or
replayed), and over calls confined to a span of `d` seconds the emitted
count is bounded by `20·d + 1`, independent of the number of calls. -/
theorem info_throttle_window (last : ℚ) (calls : List (ℚ × InfoEvent)) (a d : ℚ)
    (hd : 0 ≤ d) (hin : ∀ c ∈ calls, a ≤ c.1 ∧ c.1 ≤ a + d) :
    (throttleRun last calls).Pairwise (fun p q => p.1 + 1 / 20 ≤ q.1)
    ∧ (throttleRun last calls).Sublist (calls.map (fun c => (c.1, formatInfo c.2)))
    ∧ ((throttleRun last calls).length : ℚ) ≤ 20 * d + 1 := by
  refine ⟨throttleRun_pairwise last calls, throttleRun_sublist last calls, ?_⟩
  have hmem : ∀ p ∈ throttleRun last calls, a ≤ p.1 ∧ p.1 ≤ a + d := by
    intro p hp
    have hp2 : p ∈ calls.map (fun c => (c.1, formatInfo c.2)) :=
      (throttleRun_sublist last calls).subset hp
    rcases List.mem_map.mp hp2 with ⟨c, hc, rfl⟩
    exact hin c hc
  cases he : throttleRun last calls with
  | nil => simp; linarith
  | cons x l =>
    have hp := throttleRun_pairwise last calls
    rw [he] at hp
    obtain ⟨v, hv, hle⟩ := pairwise_gap_head x l hp
    have hx := hmem x (by rw [he]; exact List.mem_cons_self x l)
    have hvb := hmem v (by rw [he]; exact hv)
    simp only [List.length_cons]
    push_cast
    have hgap : (l.length : ℚ) * (1 / 20) ≤ d := by linarith [hx.1, hvb.2]
    linarith

theorem info_throttle_window_witness :
    (throttleRun 0 [((100 : ℚ), (⟨some 1, none, none, none, none, none, none⟩ : InfoEvent)),
        ((100 : ℚ), (⟨some 2, none, none, none, none, none, none⟩ : InfoEvent))]).Pairwise
        (fun p q => p.1 + 1 / 20 ≤ q.1)
    ∧ (throttleRun 0 [((100 : ℚ), (⟨some 1, none, none, none, none, none, none⟩ : InfoEvent)),
        ((100 : ℚ), (⟨some 2, none, none, none, none, none, none⟩ : InfoEvent))]).Sublist
        (([((100 : ℚ), (⟨some 1, none, none, none, none, none, none⟩ : InfoEvent)),
            ((100 : ℚ), (⟨some 2, none, none, none, none, none, none⟩ : InfoEvent))]).map
          (fun c => (c.1, formatInfo c.2)))
    ∧ (((throttleRun 0 [((100 : ℚ), (⟨some 1, none, none, none, none, none, none⟩ : InfoEvent)),
        ((100 : ℚ), (⟨some 2, none, none, none, none, none, none⟩ : InfoEvent))]).length : ℚ)
        ≤ 20 * 0 + 1) :=
  info_throttle_window 0 _ 100 0 (le_refl 0)
    (by
      intro c hc
      rcases List.mem_cons.mp hc with h | h
      · rw [h]; constructor
        · simp
        · simp
      · rcases List.mem_cons.mp h with h2 | h2
        · rw [h2]; constructor
          · simp
          · simp
        · simp at h2)

/-! Robustness of the dispatch loop. -/

/-- Claim C8: an unrecognized command is only logged — the engine state
(Position included) is unchanged, no response line is written, the loop is
not stopped; the dispatch step stops the loop only for `quit` (handler
failures, rendered by the caught `.error` branch, never stop it); and a
following `isready` still answers `readyok`. -/
theorem dispatch_loop_robust [DecidableEq M] (R : Rules B M) (st : EngineState B)
    (line : String) (h : headCmd line ∉ knownCmds.map some) :
    handleLine R st line = ⟨st, [], false, []⟩
    ∧ (∀ (st2 : EngineState B) (l2 : String),
        (handleLine R st2 l2).stop = true → headCmd l2 = some "quit")
    ∧ (handleLine R st "isready").out = ["readyok"] := by
  refine ⟨?_, ?_, ?_⟩
  · cases htk : pyTokens line with
    | nil => simp [handleLine, dispatchTok, htk]
    | cons c args =>
      have hhead : headCmd line = some c := by
        unfold headCmd
        rw [htk]
        rfl
      have hcm : ∀ s, s ∈ knownCmds → c ≠ s := by
        intro s hs he
        apply h
        rw [hhead, he]
        exact List.mem_map_of_mem some hs
      simp [handleLine, dispatchTok, htk, hcm "uci" (by decide), hcm "isready" (by decide),
        hcm "setoption" (by decide), hcm "ucinewgame" (by decide),
        hcm "position" (by decide), hcm "go" (by decide), hcm "stop" (by decide),
        hcm "ponderhit" (by decide), hcm "quit" (by decide)]
  · intro st2 l2 hstop
    cases htk : pyTokens l2 with
    | nil =>
      unfold handleLine at hstop
      rw [htk] at hstop
      simp [dispatchTok] at hstop
    | cons c args =>
      unfold handleLine at hstop
      rw [htk] at hstop
      simp only [dispatchTok] at hstop
      by_cases h1 : c = "uci"
      · rw [if_pos h1] at hstop; simp at hstop
      rw [if_neg h1] at hstop
      by_cases h2 : c = "isready"
      · rw [if_pos h2] at hstop; simp at hstop
      rw [if_neg h2] at hstop
      by_cases h3 : c = "setoption"
      · rw [if_pos h3] at hstop; simp at hstop
      rw [if_neg h3] at hstop
      by_cases h4 : c = "ucinewgame"
      · rw [if_pos h4] at hstop; simp at hstop
      rw [if_neg h4] at hstop
      by_cases h5 : c = "position"
      · rw [if_pos h5] at hstop
        cases hpos : cmdPosition R st2.board args with
        | ok b => rw [hpos] at hstop; simp at hstop
        | error e => rw [hpos] at hstop; simp at hstop
      rw [if_neg h5] at hstop
      by_cases h6 : c = "go"
      · rw [if_pos h6] at hstop; simp at hstop
      rw [if_neg h6] at hstop
      by_cases h7 : c = "stop"
      · rw [if_pos h7] at hstop; simp at hstop
      rw [if_neg h7] at hstop
      by_cases h8 : c = "ponderhit"
      · rw [if_pos h8] at hstop; simp at hstop
      rw [if_neg h8] at hstop
      by_cases h9 : c = "quit"
      · unfold headCmd
        rw [htk, h9]
        rfl
      rw [if_neg h9] at hstop
      simp at hstop
  · rfl

theorem dispatch_loop_robust_witness :
    handleLine toyRules toyState "positon startpos"
        = ⟨toyState, [], false, []⟩
    ∧ (∀ (st2 : EngineState (List String)) (l2 : String),
        (handleLine toyRules st2 l2).stop = true → headCmd l2 = some "quit")
    ∧ (handleLine toyRules toyState "isready").out = ["readyok"] :=
  dispatch_loop_robust toyRules toyState "positon startpos" (by decide)

end PyUci
